import Mathlib

/-!
Shallow embedding of the sync backend in `src/rust-sqlite-api/src/main.rs`.

The core state is the SQLite database: table `sync_history` (the transaction
log, rowid `id` with AUTOINCREMENT, column `actions` holding a serialized
batch) and table `model_data` (the payload store, `id TEXT PRIMARY KEY`,
`model_name`, `data`, `created_at`, `updated_at`).  We model each table as a
list of rows in rowid order (SQLite scans a rowid table in rowid order, and
`INSERT OR REPLACE` deletes the conflicting row and inserts the replacement
with a fresh rowid, i.e. at the end).  JSON (de)serialization of batches and
payloads is modelled as the identity: batches are stored as the transaction
list itself, and the opaque `serde_json::Value` payload as an abstract value
(`Value := String`), since the core only stores, restores and compares it.

The wall clock (`Utc::now().timestamp()`, read once per loop iteration in
`apply_transactions`) is a parameter `clock : Nat → Int` giving the value of
the i-th clock read of the call.  A rusqlite `Transaction` that is dropped on
the error path is rolled back; we model this by returning `.error` without a
successor state, the caller keeping the pre-call database.
-/

namespace RustSqliteApi

/-- The payload type `serde_json::Value`: opaque to the core (only stored
and compared). -/
abbrev Value := String

/-- struct Transaction { model_type, id, action, data } -/
structure Transaction where
  model_type : String
  id : String
  action : String
  data : Value
deriving Repr, DecidableEq

/-- A row of `model_data`. -/
structure Record where
  id : String
  model_name : String
  data : Value
  created_at : Int
  updated_at : Int
deriving Repr, DecidableEq

/-- struct ModelData { id, data } (bootstrap output). -/
structure ModelData where
  id : String
  data : Value
deriving Repr, DecidableEq

/-- A row of `sync_history`: assigned rowid and the stored batch. -/
structure LogEntry where
  id : Int
  actions : List Transaction
deriving Repr, DecidableEq

/-- The database: both tables, each in rowid order. -/
structure Database where
  sync_history : List LogEntry
  model_data : List Record
deriving Repr, DecidableEq

/-- A freshly created database (`Database::new` on a fresh file). -/
def emptyDb : Database := ⟨[], []⟩

/-- The recognized actions of the `match transaction.action.as_str()`. -/
def validAction (a : String) : Bool :=
  a == "create" || a == "update" || a == "delete"

/-- The statement `INSERT OR REPLACE INTO model_data`, keyed on `id`: the conflicting row
(if any) is deleted and the new row inserted with a fresh rowid.  Both
`created_at` and `updated_at` columns are bound to `now`. -/
def upsertRow (md : List Record) (tr : Transaction) (now : Int) : List Record :=
  md.filter (fun r => r.id != tr.id) ++ [⟨tr.id, tr.model_type, tr.data, now, now⟩]

/-- The statement `DELETE FROM model_data WHERE id = ?1`. -/
def deleteRow (md : List Record) (x : String) : List Record :=
  md.filter (fun r => r.id != x)

/-- The `for transaction in transactions` loop of `apply_transactions`:
`now` is read from the clock at every iteration (`i` counts the reads),
then the action is dispatched; an unrecognized action returns
`Err(InvalidParameterName("Invalid action: ..."))`. -/
def applyLoop (clock : Nat → Int) (i : Nat) (md : List Record) :
    List Transaction → Except String (List Record)
  | [] => .ok md
  | tr :: rest =>
    let now := clock i
    if tr.action == "create" || tr.action == "update" then
      applyLoop clock (i + 1) (upsertRow md tr now) rest
    else if tr.action == "delete" then
      applyLoop clock (i + 1) (deleteRow md tr.id) rest
    else
      .error ("Invalid action: " ++ tr.action)

/-- The value `MAX(id)` over `sync_history` rows, `0` when empty
(`COALESCE(MAX(id),0)`). -/
def maxId (l : List LogEntry) : Int :=
  l.foldl (fun m e => max m e.id) 0

/-- The method `Database::apply_transactions`: inside one SQLite transaction, insert the
serialized batch into `sync_history` (AUTOINCREMENT assigns rowid
`max + 1`, which `last_insert_rowid` returns as `sync_id`), replay every
transaction into `model_data`, then commit.  An error anywhere makes the
dropped transaction roll back, so no successor state is produced. -/
def apply_transactions (clock : Nat → Int) (db : Database)
    (txs : List Transaction) : Except String (Database × Int) :=
  let sync_id := maxId db.sync_history + 1
  let hist := db.sync_history ++ [⟨sync_id, txs⟩]
  match applyLoop clock 0 db.model_data txs with
  | .error e => .error e
  | .ok md => .ok (⟨hist, md⟩, sync_id)

/-- One ingest call as seen from outside: on `Ok` the database is the
committed state, on `Err` it is unchanged (rollback on drop). -/
def ingest (clock : Nat → Int) (db : Database) (txs : List Transaction) :
    Database × Except String Int :=
  match apply_transactions clock db txs with
  | .ok (db', sid) => (db', .ok sid)
  | .error e => (db, .error e)

/-- The method `Database::get_transactions`: scan
`SELECT id, actions FROM sync_history WHERE id >= from AND id <= to`
(rowid order), remembering the id of the last row as `max_sync_id` (0 when no
row matches) and extending `transactions` with each deserialized batch. -/
def get_transactions (db : Database) (fromId toId : Int) :
    Int × List Transaction :=
  let rows := db.sync_history.filter (fun e => decide (fromId ≤ e.id ∧ e.id ≤ toId))
  (rows.foldl (fun _ e => e.id) 0,
   rows.foldl (fun acc e => acc ++ e.actions) [])

/-- The grouping `models.entry(model_name).push(ModelData { id, data })` of
`get_bootstrap_data`: the HashMap is modelled as the mapping itself; the
group of an entity type collects its rows in row order. -/
def modelsOf (md : List Record) (t : String) : List ModelData :=
  (md.filter (fun r => r.model_name == t)).map (fun r => ⟨r.id, r.data⟩)

/-- The method `Database::get_bootstrap_data`: `COALESCE(MAX(id),0)` over `sync_history`
plus the grouped contents of `model_data`. -/
def get_bootstrap_data (db : Database) :
    Int × (String → List ModelData) :=
  (maxId db.sync_history, modelsOf db.model_data)

/-- A batch submission: the clock readings of the call and the transactions. -/
abbrev Batch := (Nat → Int) × List Transaction

/-- Run a sequence of ingest calls, collecting the returned positions of the
successful ones. -/
def runBatches (db : Database) (acc : List Int) :
    List Batch → Database × List Int
  | [] => (db, acc)
  | b :: rest =>
    match ingest b.1 db b.2 with
    | (db', .ok sid) => runBatches db' (acc ++ [sid]) rest
    | (db', .error _) => runBatches db' acc rest

/-- The database reached from a fresh one by a sequence of ingest calls. -/
def applyBatches (bs : List Batch) : Database :=
  (runBatches emptyDb [] bs).1

/-- The positions returned by the successful calls of a sequence, in call order. -/
def collectPositions (bs : List Batch) : List Int :=
  (runBatches emptyDb [] bs).2

/-- Replaying a stored log into a payload store: the batch of each entry is run
through the `apply_transactions` replay loop in position order. -/
def replayLog (clock : Nat → Int) (md : List Record) :
    List LogEntry → Except String (List Record)
  | [] => .ok md
  | e :: rest =>
    match applyLoop clock 0 md e.actions with
    | .error err => .error err
    | .ok md' => replayLog clock md' rest

/-- The replay loop with fallible storage: `oracle i = true` means the
`tx.execute` of the i-th iteration fails (disk / I/O), which the source
propagates with `?` as a rusqlite error, here `"PersistenceError"`.  An
unrecognized action still errors before its execute, as in the source. -/
def applyLoopF (oracle : Nat → Bool) (clock : Nat → Int) (i : Nat)
    (md : List Record) : List Transaction → Except String (List Record)
  | [] => .ok md
  | tr :: rest =>
    let now := clock i
    if tr.action == "create" || tr.action == "update" then
      if oracle i then .error "PersistenceError"
      else applyLoopF oracle clock (i + 1) (upsertRow md tr now) rest
    else if tr.action == "delete" then
      if oracle i then .error "PersistenceError"
      else applyLoopF oracle clock (i + 1) (deleteRow md tr.id) rest
    else
      .error ("Invalid action: " ++ tr.action)

/-- The method `apply_transactions` over fallible storage for the replay
phase (the `sync_history` insert is assumed to succeed, which is the case
the recovery story of the spec is about).  Any error drops the rusqlite
transaction, rolling back
the already-inserted log row together with the partial replay. -/
def apply_transactionsF (oracle : Nat → Bool) (clock : Nat → Int)
    (db : Database) (txs : List Transaction) : Except String (Database × Int) :=
  let sync_id := maxId db.sync_history + 1
  let hist := db.sync_history ++ [⟨sync_id, txs⟩]
  match applyLoopF oracle clock 0 db.model_data txs with
  | .error e => .error e
  | .ok md => .ok (⟨hist, md⟩, sync_id)

/-- One ingest call over fallible storage, seen from outside. -/
def ingestF (oracle : Nat → Bool) (clock : Nat → Int) (db : Database)
    (txs : List Transaction) : Database × Except String Int :=
  match apply_transactionsF oracle clock db txs with
  | .ok (db', sid) => (db', .ok sid)
  | .error e => (db, .error e)

/-- A record stripped of its timestamps: the part of a `model_data` row that
`get_bootstrap_data` exposes and that replay determinism is about. -/
structure SRec where
  id : String
  model_name : String
  data : Value
deriving Repr, DecidableEq

def stripRec (r : Record) : SRec := ⟨r.id, r.model_name, r.data⟩

def stripMd (md : List Record) : List SRec := md.map stripRec

/-- The effect of `upsertRow` on the timestamp-free view of the store. -/
def upsertS (md : List SRec) (tr : Transaction) : List SRec :=
  md.filter (fun r => r.id != tr.id) ++ [⟨tr.id, tr.model_type, tr.data⟩]

/-- The effect of `deleteRow` on the timestamp-free view of the store. -/
def deleteS (md : List SRec) (x : String) : List SRec :=
  md.filter (fun r => r.id != x)

/-- The replay loop on the timestamp-free view: clock-independent. -/
def replayS (md : List SRec) : List Transaction → Except String (List SRec)
  | [] => .ok md
  | tr :: rest =>
    if tr.action == "create" || tr.action == "update" then
      replayS (upsertS md tr) rest
    else if tr.action == "delete" then
      replayS (deleteS md tr.id) rest
    else
      .error ("Invalid action: " ++ tr.action)

/-- Log replay on the timestamp-free view. -/
def replaySLog (md : List SRec) : List LogEntry → Except String (List SRec)
  | [] => .ok md
  | e :: rest =>
    match replayS md e.actions with
    | .error err => .error err
    | .ok md' => replaySLog md' rest

/-- The grouping `modelsOf` factored through the timestamp-free view. -/
def modelsOfS (md : List SRec) (t : String) : List ModelData :=
  (md.filter (fun r => r.model_name == t)).map (fun r => ⟨r.id, r.data⟩)

/-- The positions `s+1, s+2, ..., s+n` as integers. -/
def intRangeFrom (s : Nat) : Nat → List Int
  | 0 => []
  | n + 1 => ((s : Int) + 1) :: intRangeFrom (s + 1) n

/-- The positions `1, 2, ..., n` as integers. -/
def intRange (n : Nat) : List Int := intRangeFrom 0 n

/-- The number of batches of a sequence that pass action validation (exactly
the ones whose ingest succeeds). -/
def successCount (bs : List Batch) : Nat :=
  (bs.filter (fun b => b.2.all (fun tr => validAction tr.action))).length

/-- Lookup of a `model_data` row by primary key. -/
def findRec (md : List Record) (x : String) : Option Record :=
  md.find? (fun r => r.id == x)

/-! ### Generic list lemmas -/

theorem map_filter_comm {α β : Type} (f : α → β) (p : β → Bool) (l : List α) :
    (l.filter (fun a => p (f a))).map f = (l.map f).filter p := by
  induction l with
  | nil => rfl
  | cons x xs ih =>
    by_cases h : p (f x) = true
    · simp [List.filter_cons, h, ih]
    · simp only [Bool.not_eq_true] at h
      simp [List.filter_cons, h, ih]

theorem find?_append_eq {α : Type} (l1 l2 : List α) (p : α → Bool) :
    (l1 ++ l2).find? p = match l1.find? p with
      | some x => some x
      | none => l2.find? p := by
  induction l1 with
  | nil => simp
  | cons x xs ih =>
    by_cases h : p x = true
    · simp [List.find?_cons, h]
    · simp only [Bool.not_eq_true] at h
      simp [List.find?_cons, h, ih]

theorem foldl_acc_append (rows : List LogEntry) (acc : List Transaction) :
    rows.foldl (fun a e => a ++ e.actions) acc
      = acc ++ (rows.map (fun e => e.actions)).flatten := by
  induction rows generalizing acc with
  | nil => simp
  | cons e rest ih => simp [List.foldl_cons, ih]

theorem foldl_last_eq_max (rows : List LogEntry) (acc : Int)
    (hsort : (rows.map (fun e => e.id)).Pairwise (· < ·))
    (hacc : ∀ e ∈ rows, acc < e.id) :
    rows.foldl (fun _ e => e.id) acc = (rows.map (fun e => e.id)).foldl max acc := by
  induction rows generalizing acc with
  | nil => rfl
  | cons e rest ih =>
    simp only [List.foldl_cons, List.map_cons]
    rw [max_eq_right (le_of_lt (hacc e (List.mem_cons_self e rest)))]
    simp only [List.map_cons, List.pairwise_cons] at hsort
    exact ih e.id hsort.2
      (fun (e2 : LogEntry) h2 =>
        hsort.1 e2.id (List.mem_map_of_mem (fun (x : LogEntry) => x.id) h2))

/-! ### C10: empty batches are accepted -/

/-- C10: ingesting an empty batch succeeds: it appends a log entry with an
empty transaction list, returns the fresh position `maxId + 1`, leaves
`model_data` unchanged, and advances the sync horizon by one. -/
theorem empty_batch_accepted (clock : Nat → Int) (db : Database) :
    ingest clock db []
      = (⟨db.sync_history ++ [⟨maxId db.sync_history + 1, []⟩], db.model_data⟩,
         .ok (maxId db.sync_history + 1))
    ∧ maxId (ingest clock db []).1.sync_history = maxId db.sync_history + 1 := by
  constructor
  · rfl
  · show maxId (db.sync_history ++ [⟨maxId db.sync_history + 1, []⟩])
        = maxId db.sync_history + 1
    unfold maxId
    rw [List.foldl_append]
    simp only [List.foldl_cons, List.foldl_nil]
    exact max_eq_right (by omega)

/-! ### Single-transaction ingest computations -/

theorem ingest_single_upsert (clock : Nat → Int) (db : Database) (tr : Transaction)
    (h : tr.action = "create" ∨ tr.action = "update") :
    ingest clock db [tr]
      = (⟨db.sync_history ++ [⟨maxId db.sync_history + 1, [tr]⟩],
          upsertRow db.model_data tr (clock 0)⟩,
         .ok (maxId db.sync_history + 1)) := by
  cases h with
  | inl h => simp [ingest, apply_transactions, applyLoop, h]
  | inr h => simp [ingest, apply_transactions, applyLoop, h]

theorem ingest_single_delete (clock : Nat → Int) (db : Database) (tr : Transaction)
    (h : tr.action = "delete") :
    ingest clock db [tr]
      = (⟨db.sync_history ++ [⟨maxId db.sync_history + 1, [tr]⟩],
          deleteRow db.model_data tr.id⟩,
         .ok (maxId db.sync_history + 1)) := by
  simp [ingest, apply_transactions, applyLoop, h]

/-! ### C1: created_at is not preserved by re-upsert -/

/-- C1 counterexample: ingest the same create (id "a") at clock 10 and again
at clock 20; the created_at of the surviving record is 20, not the 10 of the first
ingestion — `INSERT OR REPLACE` rewrites `created_at`. -/
theorem create_twice_created_at_not_first :
    (∃ r ∈ (ingest (fun _ => 20)
        (ingest (fun _ => 10) emptyDb [⟨"Todo", "a", "create", "d"⟩]).1
        [⟨"Todo", "a", "create", "d"⟩]).1.model_data, r.id = "a")
    ∧ ∀ r ∈ (ingest (fun _ => 20)
        (ingest (fun _ => 10) emptyDb [⟨"Todo", "a", "create", "d"⟩]).1
        [⟨"Todo", "a", "create", "d"⟩]).1.model_data, r.created_at ≠ 10 := by
  decide

/-- C1 amended: a create or update for an existing record_id replaces the
payload, entity_type, updated_at AND created_at of the record, all timestamps
set to the new now (created_at is not preserved); the store keeps exactly
one row for that id, appended after the other rows. -/
theorem upsert_overwrites_created_at (clock : Nat → Int) (db : Database)
    (tr : Transaction) (h : tr.action = "create" ∨ tr.action = "update") :
    (ingest clock db [tr]).1.model_data
      = db.model_data.filter (fun r => r.id != tr.id)
        ++ [⟨tr.id, tr.model_type, tr.data, clock 0, clock 0⟩]
    ∧ (ingest clock db [tr]).2 = .ok (maxId db.sync_history + 1) := by
  rw [ingest_single_upsert clock db tr h]
  exact ⟨rfl, rfl⟩

/-- Witness for the amended C1 at a concrete input. -/
theorem upsert_overwrites_created_at_witness :
    (ingest (fun _ => 7) ⟨[], [⟨"a", "Old", "x", 1, 1⟩]⟩
        [⟨"New", "a", "update", "y"⟩]).1.model_data
      = [⟨"a", "New", "y", 7, 7⟩]
    ∧ (ingest (fun _ => 7) ⟨[], [⟨"a", "Old", "x", 1, 1⟩]⟩
        [⟨"New", "a", "update", "y"⟩]).2 = .ok 1 := by
  have h := upsert_overwrites_created_at (fun _ => 7) ⟨[], [⟨"a", "Old", "x", 1, 1⟩]⟩
    ⟨"New", "a", "update", "y"⟩ (Or.inr rfl)
  refine ⟨?_, ?_⟩
  · rw [h.1]; rfl
  · rw [h.2]; rfl

/-! ### C3: invalid actions reject the whole batch -/

theorem applyLoop_error_of_find (clock : Nat → Int) (t0 : Transaction) :
    ∀ (txs : List Transaction) (i : Nat) (md : List Record),
      txs.find? (fun tr => !validAction tr.action) = some t0 →
      applyLoop clock i md txs = .error ("Invalid action: " ++ t0.action) := by
  intro txs
  induction txs with
  | nil => intro i md h; simp at h
  | cons tr rest ih =>
    intro i md h
    by_cases hv : validAction tr.action = true
    · have hpred : (!validAction tr.action) = false := by simp [hv]
      rw [List.find?_cons, hpred] at h
      simp only [cond_false] at h
      by_cases h1 : (tr.action == "create" || tr.action == "update") = true
      · simp only [applyLoop, h1, if_true]
        exact ih (i + 1) _ h
      · have h2 : (tr.action == "delete") = true := by
          revert hv h1
          unfold validAction
          cases hc : tr.action == "create" <;> cases hu : tr.action == "update" <;>
            cases hd : tr.action == "delete" <;> simp
        simp only [Bool.not_eq_true] at h1
        simp only [applyLoop, h1, h2, if_true, Bool.false_eq_true, if_false]
        exact ih (i + 1) _ h
    · have hpred : (!validAction tr.action) = true := by simp [hv]
      rw [List.find?_cons, hpred] at h
      simp only [cond_true, Option.some.injEq] at h
      subst h
      have hc : (tr.action == "create") = false := by
        revert hv; unfold validAction
        cases tr.action == "create" <;> simp
      have hu : (tr.action == "update") = false := by
        revert hv; unfold validAction
        cases tr.action == "update" <;> simp
      have hd : (tr.action == "delete") = false := by
        revert hv; unfold validAction
        cases tr.action == "delete" <;> simp
      simp only [applyLoop, hc, hu, hd, Bool.or_self, Bool.false_eq_true, if_false]

/-- C3: a batch holding a transaction with an unrecognized action makes
ingest fail with an error naming the first offending action, and the
database — both `sync_history` and `model_data` — is exactly the one
before the call (the SQLite transaction rolls back). -/
theorem invalid_action_atomic_reject (clock : Nat → Int) (db : Database)
    (txs : List Transaction) (t0 : Transaction)
    (h : txs.find? (fun tr => !validAction tr.action) = some t0) :
    ingest clock db txs = (db, .error ("Invalid action: " ++ t0.action)) := by
  unfold ingest apply_transactions
  rw [applyLoop_error_of_find clock t0 txs 0 db.model_data h]

/-- Witness for C3 at a concrete input. -/
theorem invalid_action_atomic_reject_witness :
    ingest (fun _ => 0) emptyDb [⟨"Todo", "x", "bogus", "d"⟩]
      = (emptyDb, .error ("Invalid action: " ++ "bogus")) := by
  exact invalid_action_atomic_reject (fun _ => 0) emptyDb
    [⟨"Todo", "x", "bogus", "d"⟩] ⟨"Todo", "x", "bogus", "d"⟩ (by rfl)

/-! ### C4: a replay failure rolls the log entry back too -/

theorem valid_not_upsert_is_delete {a : String} (hv : validAction a = true)
    (h1 : (a == "create" || a == "update") = false) : (a == "delete") = true := by
  revert hv h1
  unfold validAction
  cases a == "create" <;> cases a == "update" <;> cases a == "delete" <;> simp

/-- C4 counterexample: storage fails at the second replay step of a two-create
batch; afterwards the log has NO entry for the batch and an error — not the
position — is returned: the enclosing SQLite transaction rolled back the
already-inserted `sync_history` row together with the partial replay. -/
theorem replay_failure_log_rolled_back :
    (ingestF (fun i => i == 1) (fun _ => 0) emptyDb
        [⟨"Todo", "a", "create", "d"⟩, ⟨"Todo", "b", "create", "e"⟩]).1.sync_history = []
    ∧ (ingestF (fun i => i == 1) (fun _ => 0) emptyDb
        [⟨"Todo", "a", "create", "d"⟩, ⟨"Todo", "b", "create", "e"⟩]).2
      = .error "PersistenceError" :=
  ⟨rfl, rfl⟩

theorem applyLoopF_reaches_failure (clock : Nat → Int) (k : Nat) :
    ∀ (txs : List Transaction) (i : Nat) (md : List Record),
      (∀ tr ∈ txs, validAction tr.action = true) →
      i ≤ k → k < i + txs.length →
      applyLoopF (fun j => j == k) clock i md txs = .error "PersistenceError" := by
  intro txs
  induction txs with
  | nil => intro i md _ hik hlt; simp at hlt; omega
  | cons tr rest ih =>
    intro i md hv hik hlt
    have hvtr := hv tr (List.mem_cons_self tr rest)
    have hnext : k < (i + 1) + rest.length := by
      simp only [List.length_cons] at hlt; omega
    by_cases h1 : (tr.action == "create" || tr.action == "update") = true
    · simp only [applyLoopF, h1, if_true]
      by_cases hk : (i == k) = true
      · simp [hk]
      · simp only [hk, Bool.false_eq_true, if_false]
        have hne : i ≠ k := by simpa using hk
        exact ih (i + 1) _ (fun t ht => hv t (List.mem_cons_of_mem tr ht))
          (by omega) hnext
    · simp only [Bool.not_eq_true] at h1
      have h2 := valid_not_upsert_is_delete hvtr h1
      simp only [applyLoopF, h1, h2, Bool.false_eq_true, if_false, if_true]
      by_cases hk : (i == k) = true
      · simp [hk]
      · simp only [hk, Bool.false_eq_true, if_false]
        have hne : i ≠ k := by simpa using hk
        exact ih (i + 1) _ (fun t ht => hv t (List.mem_cons_of_mem tr ht))
          (by omega) hnext

/-- C4 amended: when the log append has gone through inside the storage
transaction but a replay step fails, the WHOLE call rolls back: the new
`sync_history` entry does not survive and the caller gets the error, not
the position.  Log and store never diverge on this path. -/
theorem replay_failure_rolls_back (clock : Nat → Int) (db : Database)
    (txs : List Transaction) (k : Nat) (hk : k < txs.length)
    (hv : ∀ tr ∈ txs, validAction tr.action = true) :
    ingestF (fun j => j == k) clock db txs = (db, .error "PersistenceError") := by
  unfold ingestF apply_transactionsF
  rw [applyLoopF_reaches_failure clock k txs 0 db.model_data hv (Nat.zero_le k)
    (by omega)]

/-- Witness for the amended C4 at a concrete input. -/
theorem replay_failure_rolls_back_witness :
    ingestF (fun j => j == 0) (fun _ => 3) ⟨[⟨1, []⟩], []⟩
        [⟨"T", "a", "create", "d"⟩]
      = (⟨[⟨1, []⟩], []⟩, .error "PersistenceError") :=
  replay_failure_rolls_back (fun _ => 3) ⟨[⟨1, []⟩], []⟩
    [⟨"T", "a", "create", "d"⟩] 0 (by decide) (by decide)

/-! ### C5: the clock is read once per transaction, not once per batch -/

/-- C5 counterexample: one batch of two creates ingested under a clock that
advances between the two loop iterations; the two written records carry
different updated_at values (0 and 1), so a batch is not one logical
instant. -/
theorem batch_not_single_instant :
    ∃ r ∈ (ingest (fun i => (i : Int)) emptyDb
        [⟨"Todo", "a", "create", "d"⟩, ⟨"Todo", "b", "create", "e"⟩]).1.model_data,
      ∃ s ∈ (ingest (fun i => (i : Int)) emptyDb
        [⟨"Todo", "a", "create", "d"⟩, ⟨"Todo", "b", "create", "e"⟩]).1.model_data,
      r.updated_at ≠ s.updated_at := by
  decide

theorem find?_filter_ne_eq_none (md : List Record) (t : String) :
    (md.filter (fun r => r.id != t)).find? (fun r => r.id == t) = none := by
  rw [List.find?_eq_none]
  intro r hr
  have h2 := (List.mem_filter.mp hr).2
  simpa using h2

theorem findRec_upsert_self (md : List Record) (tr : Transaction) (now : Int) :
    findRec (upsertRow md tr now) tr.id
      = some ⟨tr.id, tr.model_type, tr.data, now, now⟩ := by
  unfold findRec upsertRow
  rw [find?_append_eq, find?_filter_ne_eq_none]
  simp [List.find?]

/-- C5 amended: each transaction of a batch is replayed with its own clock
reading: in a two-create batch the timestamps of the first record are the 0th
reading and those of the second the 1st, so records written by one batch
need not share an updated_at. -/
theorem per_transaction_timestamps (clock : Nat → Int) (db : Database)
    (t1 t2 : Transaction) (h1 : t1.action = "create") (h2 : t2.action = "create")
    (hne : t1.id ≠ t2.id) :
    findRec (ingest clock db [t1, t2]).1.model_data t1.id
      = some ⟨t1.id, t1.model_type, t1.data, clock 0, clock 0⟩
    ∧ findRec (ingest clock db [t1, t2]).1.model_data t2.id
      = some ⟨t2.id, t2.model_type, t2.data, clock 1, clock 1⟩ := by
  have hmd : (ingest clock db [t1, t2]).1.model_data
      = upsertRow (upsertRow db.model_data t1 (clock 0)) t2 (clock 1) := by
    simp [ingest, apply_transactions, applyLoop, h1, h2]
  rw [hmd]
  refine ⟨?_, findRec_upsert_self _ t2 (clock 1)⟩
  unfold upsertRow findRec
  rw [List.filter_append, find?_append_eq, find?_append_eq]
  have hA : ((db.model_data.filter (fun r => r.id != t1.id)).filter
      (fun r => r.id != t2.id)).find? (fun r => r.id == t1.id) = none := by
    rw [List.find?_eq_none]
    intro r hr
    have h3 := (List.mem_filter.mp (List.mem_filter.mp hr).1).2
    simpa using h3
  rw [hA]
  have hr1 : ([(⟨t1.id, t1.model_type, t1.data, clock 0, clock 0⟩ : Record)].filter
      (fun r => r.id != t2.id)) = [⟨t1.id, t1.model_type, t1.data, clock 0, clock 0⟩] := by
    have hbne : (t1.id != t2.id) = true := by simpa using hne
    simp [List.filter, hbne]
  rw [hr1]
  simp [List.find?]

/-- Witness for the amended C5 at a concrete input. -/
theorem per_transaction_timestamps_witness :
    findRec (ingest (fun i => (i : Int) + 5) emptyDb
        [⟨"T", "a", "create", "d"⟩, ⟨"T", "b", "create", "e"⟩]).1.model_data "a"
      = some ⟨"a", "T", "d", 5, 5⟩
    ∧ findRec (ingest (fun i => (i : Int) + 5) emptyDb
        [⟨"T", "a", "create", "d"⟩, ⟨"T", "b", "create", "e"⟩]).1.model_data "b"
      = some ⟨"b", "T", "e", 6, 6⟩ := by
  have h := per_transaction_timestamps (fun i => (i : Int) + 5) emptyDb
    ⟨"T", "a", "create", "d"⟩ ⟨"T", "b", "create", "e"⟩ rfl rfl (by decide)
  refine ⟨?_, ?_⟩
  · rw [h.1]; rfl
  · rw [h.2]; rfl

/-! ### C8: delete removes if present, no-op if absent; tombstone -/

/-- C8: replaying a delete removes the record with that record_id and is a
no-op — not an error — when the id is absent; in particular after
create(id = X) then delete(id = X), bootstrap lists no record with id X
under any entity type, and a delete on a store without the id succeeds and
leaves model_data unchanged. -/
theorem delete_tombstone (c1 c2 c3 : Nat → Int) (db : Database)
    (trc trd : Transaction) (_hc : trc.action = "create")
    (hd : trd.action = "delete") (hid : trd.id = trc.id) :
    (∀ t : String, ∀ m ∈ (get_bootstrap_data
        (ingest c2 (ingest c1 db [trc]).1 [trd]).1).2 t, m.id ≠ trc.id)
    ∧ (ingest c2 (ingest c1 db [trc]).1 [trd]).2
        = .ok (maxId (ingest c1 db [trc]).1.sync_history + 1)
    ∧ ((∀ r ∈ db.model_data, r.id ≠ trd.id) →
        (ingest c3 db [trd]).1.model_data = db.model_data)
    ∧ (ingest c3 db [trd]).2 = .ok (maxId db.sync_history + 1) := by
  have e2 := ingest_single_delete c2 (ingest c1 db [trc]).1 trd hd
  have e3 := ingest_single_delete c3 db trd hd
  refine ⟨?_, by rw [e2], ?_, by rw [e3]⟩
  · intro t m hm
    rw [e2] at hm
    simp only [get_bootstrap_data, deleteRow, modelsOf, List.mem_map,
      List.mem_filter] at hm
    obtain ⟨r, ⟨⟨hrmem, hrid⟩, hrt⟩, hrm⟩ := hm
    rw [← hrm]
    simp only [ne_eq]
    rw [← hid]
    simpa using hrid
  · intro habs
    rw [e3]
    show deleteRow db.model_data trd.id = db.model_data
    unfold deleteRow
    rw [List.filter_eq_self]
    intro r hr
    simpa using habs r hr

/-- Witness for C8 at a concrete input. -/
theorem delete_tombstone_witness :
    (∀ t : String, ∀ m ∈ (get_bootstrap_data
        (ingest (fun _ => 2) (ingest (fun _ => 1) emptyDb
          [⟨"Todo", "a", "create", "d"⟩]).1
          [⟨"Todo", "a", "delete", "z"⟩]).1).2 t, m.id ≠ "a")
    ∧ (ingest (fun _ => 3) emptyDb [⟨"Todo", "a", "delete", "z"⟩]).1.model_data
        = emptyDb.model_data := by
  have h := delete_tombstone (fun _ => 1) (fun _ => 2) (fun _ => 3) emptyDb
    ⟨"Todo", "a", "create", "d"⟩ ⟨"Todo", "a", "delete", "z"⟩ rfl rfl rfl
  exact ⟨h.1, h.2.2.1 (by simp [emptyDb])⟩

/-! ### C9: at most one record per record_id across entity types -/

theorem ids_upsertRow (md : List Record) (tr : Transaction) (now : Int) :
    (upsertRow md tr now).map (fun r => r.id)
      = ((md.map (fun r => r.id)).filter (fun s => s != tr.id)) ++ [tr.id] := by
  unfold upsertRow
  rw [List.map_append, map_filter_comm (fun (r : Record) => r.id)
    (fun s => s != tr.id) md]
  rfl

theorem nodup_ids_upsertRow (md : List Record) (tr : Transaction) (now : Int)
    (h : (md.map (fun r => r.id)).Nodup) :
    ((upsertRow md tr now).map (fun r => r.id)).Nodup := by
  rw [ids_upsertRow, List.nodup_append]
  refine ⟨h.filter _, List.nodup_singleton _, ?_⟩
  intro a ha hb
  have h1 := (List.mem_filter.mp ha).2
  have h2 : a = tr.id := by simpa using hb
  simp [h2] at h1

theorem nodup_ids_deleteRow (md : List Record) (x : String)
    (h : (md.map (fun r => r.id)).Nodup) :
    ((deleteRow md x).map (fun r => r.id)).Nodup :=
  List.Nodup.sublist (List.Sublist.map _ (List.filter_sublist md)) h

theorem applyLoop_nodup :
    ∀ (txs : List Transaction) (clock : Nat → Int) (i : Nat)
      (md md' : List Record),
      applyLoop clock i md txs = .ok md' →
      (md.map (fun r => r.id)).Nodup → (md'.map (fun r => r.id)).Nodup := by
  intro txs
  induction txs with
  | nil =>
    intro clock i md md' h hn
    simp only [applyLoop, Except.ok.injEq] at h
    rw [← h]; exact hn
  | cons tr rest ih =>
    intro clock i md md' h hn
    by_cases h1 : (tr.action == "create" || tr.action == "update") = true
    · simp only [applyLoop, h1, if_true] at h
      exact ih _ _ _ _ h (nodup_ids_upsertRow _ _ _ hn)
    · by_cases h2 : (tr.action == "delete") = true
      · simp only [Bool.not_eq_true] at h1
        simp only [applyLoop, h1, h2, Bool.false_eq_true, if_false, if_true] at h
        exact ih _ _ _ _ h (nodup_ids_deleteRow _ _ hn)
      · simp only [Bool.not_eq_true] at h1 h2
        simp only [applyLoop, h1, h2, Bool.false_eq_true, if_false] at h
        exact Except.noConfusion h

theorem ingest_ok_model_data (clock : Nat → Int) (db : Database)
    (txs : List Transaction) (db' : Database) (sid : Int)
    (h : ingest clock db txs = (db', .ok sid)) :
    ∃ md', applyLoop clock 0 db.model_data txs = .ok md'
      ∧ db'.model_data = md' := by
  unfold ingest apply_transactions at h
  rcases ha : applyLoop clock 0 db.model_data txs with e | md'
  · rw [ha] at h
    simp at h
  · rw [ha] at h
    simp only [Prod.mk.injEq] at h
    exact ⟨md', rfl, by rw [← h.1]⟩

theorem ingest_error_db (clock : Nat → Int) (db : Database)
    (txs : List Transaction) (db' : Database) (e : String)
    (h : ingest clock db txs = (db', .error e)) : db' = db := by
  unfold ingest apply_transactions at h
  rcases ha : applyLoop clock 0 db.model_data txs with e2 | md'
  · rw [ha] at h
    simp only [Prod.mk.injEq] at h
    exact h.1.symm
  · rw [ha] at h
    simp at h

theorem runBatches_nodup :
    ∀ (bs : List Batch) (db : Database) (acc : List Int),
      (db.model_data.map (fun r => r.id)).Nodup →
      ((runBatches db acc bs).1.model_data.map (fun r => r.id)).Nodup := by
  intro bs
  induction bs with
  | nil => intro db acc h; exact h
  | cons b rest ih =>
    intro db acc h
    rcases hi : ingest b.1 db b.2 with ⟨db', r⟩
    cases r with
    | ok sid =>
      simp only [runBatches, hi]
      obtain ⟨md', ha, hmd⟩ := ingest_ok_model_data b.1 db b.2 db' sid hi
      exact ih db' _ (by rw [hmd]; exact applyLoop_nodup _ _ _ _ _ ha h)
    | error e =>
      simp only [runBatches, hi]
      have hdb := ingest_error_db b.1 db b.2 db' e hi
      exact ih db' _ (by rw [hdb]; exact h)

/-- C9: the store keys records by record_id alone, across entity types: any
reachable store has pairwise distinct record ids; a create/update whose id
already exists under another entity_type leaves exactly one record with
that id, carrying the new entity_type; and a delete removes the record
with its id no matter which entity_type it was stored under. -/
theorem single_record_per_id (bs : List Batch) (clock c2 : Nat → Int)
    (db : Database) (tr trd : Transaction) :
    ((applyBatches bs).model_data.map (fun r => r.id)).Nodup
    ∧ (tr.action = "create" ∨ tr.action = "update" →
        ((ingest clock db [tr]).1.model_data.filter
            (fun r => r.id == tr.id)).map (fun r => r.model_name)
          = [tr.model_type])
    ∧ (trd.action = "delete" →
        ∀ r ∈ (ingest c2 db [trd]).1.model_data, r.id ≠ trd.id) := by
  refine ⟨runBatches_nodup bs emptyDb [] (by simp [emptyDb]), ?_, ?_⟩
  · intro h
    rw [ingest_single_upsert clock db tr h]
    show ((upsertRow db.model_data tr (clock 0)).filter
        (fun r => r.id == tr.id)).map (fun r => r.model_name) = [tr.model_type]
    unfold upsertRow
    rw [List.filter_append]
    have hA : (db.model_data.filter (fun r => r.id != tr.id)).filter
        (fun r => r.id == tr.id) = [] := by
      rw [List.filter_eq_nil_iff]
      intro r hr
      have h2 := (List.mem_filter.mp hr).2
      simpa using h2
    rw [hA]
    simp [List.filter]
  · intro h r hr
    rw [ingest_single_delete c2 db trd h] at hr
    have h2 := (List.mem_filter.mp hr).2
    simpa using h2

/-- Witness for C9 at a concrete input (a create that moves id "a" from
entity type "Old" to "New", and a delete that removes it from under "New"). -/
theorem single_record_per_id_witness :
    ((applyBatches [((fun _ => 1), [⟨"Old", "a", "create", "d"⟩])]).model_data.map
        (fun r => r.id)).Nodup
    ∧ ((ingest (fun _ => 2) ⟨[], [⟨"a", "Old", "d", 1, 1⟩]⟩
          [⟨"New", "a", "create", "e"⟩]).1.model_data.filter
            (fun r => r.id == "a")).map (fun r => r.model_name) = ["New"]
    ∧ (∀ r ∈ (ingest (fun _ => 3) ⟨[], [⟨"a", "New", "e", 2, 2⟩]⟩
          [⟨"Old", "a", "delete", "z"⟩]).1.model_data, r.id ≠ "a") := by
  have h := single_record_per_id [((fun _ => 1), [⟨"Old", "a", "create", "d"⟩])]
    (fun _ => 2) (fun _ => 3) ⟨[], [⟨"a", "Old", "d", 1, 1⟩]⟩
    ⟨"New", "a", "create", "e"⟩ ⟨"Old", "a", "delete", "z"⟩
  have h2 := single_record_per_id [((fun _ => 1), [⟨"Old", "a", "create", "d"⟩])]
    (fun _ => 2) (fun _ => 3) ⟨[], [⟨"a", "New", "e", 2, 2⟩]⟩
    ⟨"New", "a", "create", "e"⟩ ⟨"Old", "a", "delete", "z"⟩
  exact ⟨h.1, h.2.1 (Or.inl rfl), h2.2.2 rfl⟩

/-! ### C2: replay determinism -/

theorem stripMd_filter_id (md : List Record) (x : String) :
    stripMd (md.filter (fun r => r.id != x))
      = (stripMd md).filter (fun s => s.id != x) := by
  induction md with
  | nil => rfl
  | cons r rest ih =>
    by_cases h : (r.id != x) = true
    · simp only [stripMd, List.map_cons, List.filter_cons, stripRec, h,
        if_true] at *
      rw [ih]
    · simp only [Bool.not_eq_true] at h
      simp only [stripMd, List.map_cons, List.filter_cons, stripRec, h,
        Bool.false_eq_true, if_false] at *
      rw [ih]

theorem stripMd_filter_name (md : List Record) (t : String) :
    stripMd (md.filter (fun r => r.model_name == t))
      = (stripMd md).filter (fun s => s.model_name == t) := by
  induction md with
  | nil => rfl
  | cons r rest ih =>
    by_cases h : (r.model_name == t) = true
    · simp only [stripMd, List.map_cons, List.filter_cons, stripRec, h,
        if_true] at *
      rw [ih]
    · simp only [Bool.not_eq_true] at h
      simp only [stripMd, List.map_cons, List.filter_cons, stripRec, h,
        Bool.false_eq_true, if_false] at *
      rw [ih]

theorem stripMd_upsertRow (md : List Record) (tr : Transaction) (now : Int) :
    stripMd (upsertRow md tr now) = upsertS (stripMd md) tr := by
  unfold upsertRow upsertS
  show stripMd (md.filter (fun r => r.id != tr.id)
      ++ [⟨tr.id, tr.model_type, tr.data, now, now⟩]) = _
  unfold stripMd
  rw [List.map_append]
  have h := stripMd_filter_id md tr.id
  unfold stripMd at h
  rw [h]
  rfl

theorem stripMd_deleteRow (md : List Record) (x : String) :
    stripMd (deleteRow md x) = deleteS (stripMd md) x := by
  unfold deleteRow deleteS
  exact stripMd_filter_id md x

theorem applyLoop_strip :
    ∀ (txs : List Transaction) (clock : Nat → Int) (i : Nat) (md : List Record),
      (applyLoop clock i md txs).map stripMd = replayS (stripMd md) txs := by
  intro txs
  induction txs with
  | nil => intro clock i md; rfl
  | cons tr rest ih =>
    intro clock i md
    by_cases h1 : (tr.action == "create" || tr.action == "update") = true
    · simp only [applyLoop, replayS, h1, if_true]
      rw [ih, stripMd_upsertRow]
    · by_cases h2 : (tr.action == "delete") = true
      · simp only [Bool.not_eq_true] at h1
        simp only [applyLoop, replayS, h1, h2, Bool.false_eq_true, if_false,
          if_true]
        rw [ih, stripMd_deleteRow]
      · simp only [Bool.not_eq_true] at h1 h2
        simp only [applyLoop, replayS, h1, h2, Bool.false_eq_true, if_false]
        rfl

theorem replayLog_strip :
    ∀ (es : List LogEntry) (clock : Nat → Int) (md : List Record),
      (replayLog clock md es).map stripMd = replaySLog (stripMd md) es := by
  intro es
  induction es with
  | nil => intro clock md; rfl
  | cons e rest ih =>
    intro clock md
    simp only [replayLog, replaySLog]
    rcases ha : applyLoop clock 0 md e.actions with err | md'
    · have hs := applyLoop_strip e.actions clock 0 md
      rw [ha] at hs
      rw [← hs]
      rfl
    · have hs := applyLoop_strip e.actions clock 0 md
      rw [ha] at hs
      rw [← hs]
      exact ih clock md'

theorem replaySLog_append (l1 l2 : List LogEntry) :
    ∀ (md : List SRec),
      replaySLog md (l1 ++ l2) = match replaySLog md l1 with
        | .ok md' => replaySLog md' l2
        | .error e => .error e := by
  induction l1 with
  | nil => intro md; rfl
  | cons e rest ih =>
    intro md
    simp only [List.cons_append, replaySLog]
    rcases replayS md e.actions with err | md'
    · rfl
    · exact ih md'

theorem modelsOf_strip (md : List Record) (t : String) :
    modelsOf md t = modelsOfS (stripMd md) t := by
  unfold modelsOf modelsOfS
  rw [← stripMd_filter_name]
  unfold stripMd
  rw [List.map_map]
  rfl

/-- The replay-determinism invariant: the stored log, replayed from an empty
store, reproduces the current store up to timestamps. -/
theorem runBatches_replay :
    ∀ (bs : List Batch) (db : Database) (acc : List Int),
      replaySLog [] db.sync_history = .ok (stripMd db.model_data) →
      replaySLog [] (runBatches db acc bs).1.sync_history
        = .ok (stripMd (runBatches db acc bs).1.model_data) := by
  intro bs
  induction bs with
  | nil => intro db acc h; exact h
  | cons b rest ih =>
    intro db acc h
    rcases hi : ingest b.1 db b.2 with ⟨db', r⟩
    cases r with
    | ok sid =>
      simp only [runBatches, hi]
      apply ih
      have hstep := hi
      unfold ingest apply_transactions at hstep
      rcases ha : applyLoop b.1 0 db.model_data b.2 with e | md'
      · rw [ha] at hstep; simp at hstep
      · rw [ha] at hstep
        simp only [Prod.mk.injEq] at hstep
        rw [← hstep.1]
        show replaySLog []
            (db.sync_history ++ [⟨maxId db.sync_history + 1, b.2⟩])
          = .ok (stripMd md')
        rw [replaySLog_append, h]
        show replaySLog (stripMd db.model_data) [⟨maxId db.sync_history + 1, b.2⟩]
          = .ok (stripMd md')
        have hs := applyLoop_strip b.2 b.1 0 db.model_data
        rw [ha] at hs
        simp only [replaySLog, ← hs]
        rfl
    | error e =>
      simp only [runBatches, hi]
      apply ih
      rw [ingest_error_db b.1 db b.2 db' e hi]
      exact h

/-- C2: replaying the whole stored Transaction Log, in position order, into a
fresh empty Payload Store — under ANY replay clock — succeeds and yields a
store exposing the same mapping from entity_type to {record_id, payload}
pairs as bootstrap taken after the same ingest sequence. -/
theorem replay_determinism (bs : List Batch) (rc : Nat → Int) :
    ∃ md', replayLog rc [] (applyBatches bs).sync_history = .ok md'
      ∧ ∀ t : String, modelsOf md' t = (get_bootstrap_data (applyBatches bs)).2 t := by
  have hinv := runBatches_replay bs emptyDb [] rfl
  have hs := replayLog_strip (applyBatches bs).sync_history rc []
  simp only [stripMd, List.map_nil] at hs
  simp only [applyBatches] at hs ⊢
  rcases hr : replayLog rc [] (runBatches emptyDb [] bs).1.sync_history with e | md'
  · rw [hr] at hs
    rw [← hs] at hinv
    simp [Except.map] at hinv
  · refine ⟨md', rfl, ?_⟩
    intro t
    rw [hr] at hs
    rw [← hs] at hinv
    simp only [Except.map, Except.ok.injEq] at hinv
    show modelsOf md' t = modelsOf (runBatches emptyDb [] bs).1.model_data t
    rw [modelsOf_strip, modelsOf_strip, hinv]

/-! ### C7: positions are gapless, starting at 1 -/

theorem intRangeFrom_concat :
    ∀ (n s : Nat), intRangeFrom s (n + 1)
      = intRangeFrom s n ++ [(s : Int) + (n : Int) + 1] := by
  intro n
  induction n with
  | zero => intro s; simp [intRangeFrom]
  | succ k ih =>
    intro s
    show ((s : Int) + 1) :: intRangeFrom (s + 1) (k + 1)
      = (((s : Int) + 1) :: intRangeFrom (s + 1) k) ++ _
    rw [ih (s + 1), List.cons_append]
    have hc : ((s + 1 : Nat) : Int) + (k : Int) + 1
        = (s : Int) + ((k + 1 : Nat) : Int) + 1 := by push_cast; ring
    rw [hc]

theorem foldl_max_intRange (n : Nat) : (intRange n).foldl max 0 = (n : Int) := by
  induction n with
  | zero => rfl
  | succ k ih =>
    unfold intRange at *
    rw [intRangeFrom_concat, List.foldl_append, ih]
    show max (k : Int) ((0 : Int) + (k : Int) + 1) = ((k + 1 : Nat) : Int)
    rw [max_eq_right (by omega)]
    omega

theorem maxId_of_ids (l : List LogEntry) (n : Nat)
    (h : l.map (fun e => e.id) = intRange n) : maxId l = (n : Int) := by
  unfold maxId
  have h2 : (l.map (fun e => e.id)).foldl max 0
      = l.foldl (fun m e => max m e.id) 0 :=
    List.foldl_map (fun (e : LogEntry) => e.id) max l 0
  rw [← h2, h, foldl_max_intRange]

theorem applyLoop_ok_of_valid :
    ∀ (txs : List Transaction) (clock : Nat → Int) (i : Nat) (md : List Record),
      txs.all (fun tr => validAction tr.action) = true →
      ∃ md', applyLoop clock i md txs = .ok md' := by
  intro txs
  induction txs with
  | nil => exact fun clock i md _ => ⟨md, rfl⟩
  | cons tr rest ih =>
    intro clock i md hall
    rw [List.all_cons, Bool.and_eq_true] at hall
    by_cases h1 : (tr.action == "create" || tr.action == "update") = true
    · simp only [applyLoop, h1, if_true]
      exact ih clock (i + 1) _ hall.2
    · simp only [Bool.not_eq_true] at h1
      have h2 := valid_not_upsert_is_delete hall.1 h1
      simp only [applyLoop, h1, h2, Bool.false_eq_true, if_false, if_true]
      exact ih clock (i + 1) _ hall.2

theorem all_false_find {α : Type} (p : α → Bool) :
    ∀ (l : List α), l.all p = false → ∃ x, l.find? (fun a => !p a) = some x := by
  intro l
  induction l with
  | nil => intro h; simp at h
  | cons a rest ih =>
    intro h
    by_cases hp : p a = true
    · rw [List.all_cons, hp, Bool.true_and] at h
      obtain ⟨x, hx⟩ := ih h
      refine ⟨x, ?_⟩
      rw [List.find?_cons]
      simp [hp, hx]
    · refine ⟨a, ?_⟩
      rw [List.find?_cons]
      simp only [Bool.not_eq_true] at hp
      simp [hp]

theorem successCount_cons_true (b : Batch) (bs : List Batch)
    (h : b.2.all (fun tr => validAction tr.action) = true) :
    successCount (b :: bs) = successCount bs + 1 := by
  simp [successCount, List.filter_cons, h]

theorem successCount_cons_false (b : Batch) (bs : List Batch)
    (h : b.2.all (fun tr => validAction tr.action) = false) :
    successCount (b :: bs) = successCount bs := by
  simp [successCount, List.filter_cons, h]

theorem runBatches_positions :
    ∀ (bs : List Batch) (db : Database) (acc : List Int) (n : Nat),
      db.sync_history.map (fun e => e.id) = intRange n →
      ((runBatches db acc bs).1.sync_history.map (fun e => e.id)
          = intRange (n + successCount bs))
      ∧ (runBatches db acc bs).2 = acc ++ intRangeFrom n (successCount bs) := by
  intro bs
  induction bs with
  | nil =>
    intro db acc n h
    refine ⟨?_, by simp [runBatches, successCount, intRangeFrom]⟩
    show db.sync_history.map (fun e => e.id) = intRange (n + successCount [])
    simpa [successCount] using h
  | cons b rest ih =>
    intro db acc n h
    by_cases hv : b.2.all (fun tr => validAction tr.action) = true
    · obtain ⟨md', ha⟩ := applyLoop_ok_of_valid b.2 b.1 0 db.model_data hv
      have hi : ingest b.1 db b.2
          = (⟨db.sync_history ++ [⟨maxId db.sync_history + 1, b.2⟩], md'⟩,
             .ok (maxId db.sync_history + 1)) := by
        unfold ingest apply_transactions
        rw [ha]
      have hmax : maxId db.sync_history = (n : Int) := maxId_of_ids _ n h
      have hids : (db.sync_history
            ++ [(⟨maxId db.sync_history + 1, b.2⟩ : LogEntry)]).map (fun e => e.id)
          = intRange (n + 1) := by
        rw [List.map_append, h, hmax]
        unfold intRange
        rw [intRangeFrom_concat]
        simp
      simp only [runBatches, hi]
      have hstep := ih ⟨db.sync_history ++ [⟨maxId db.sync_history + 1, b.2⟩], md'⟩
        (acc ++ [maxId db.sync_history + 1]) (n + 1) hids
      rw [successCount_cons_true b rest hv]
      refine ⟨?_, ?_⟩
      · rw [hstep.1]
        congr 1
        omega
      · rw [hstep.2, hmax]
        show (acc ++ [(n : Int) + 1]) ++ intRangeFrom (n + 1) (successCount rest)
          = acc ++ intRangeFrom n (successCount rest + 1)
        rw [List.append_assoc]
        rfl
    · simp only [Bool.not_eq_true] at hv
      obtain ⟨t0, hfind⟩ := all_false_find (fun tr => validAction tr.action) b.2 hv
      have herr := applyLoop_error_of_find b.1 t0 b.2 0 db.model_data hfind
      have hi : ingest b.1 db b.2
          = (db, .error ("Invalid action: " ++ t0.action)) := by
        unfold ingest apply_transactions
        rw [herr]
      simp only [runBatches, hi]
      rw [successCount_cons_false b rest hv]
      exact ih db acc n h

/-- C7: a successful ingest returns position previous-maximum-plus-one (1 on
an empty log), and over any call sequence from a fresh database the
positions returned by the successful ingests are exactly 1, 2, ..., k —
strictly increasing, gapless, starting at 1, never reused. -/
theorem positions_gapless (bs : List Batch) (clock : Nat → Int) (db : Database)
    (txs : List Transaction) :
    (txs.all (fun tr => validAction tr.action) = true →
      (ingest clock db txs).2 = .ok (maxId db.sync_history + 1))
    ∧ collectPositions bs = intRange (successCount bs) := by
  constructor
  · intro hv
    obtain ⟨md', ha⟩ := applyLoop_ok_of_valid txs clock 0 db.model_data hv
    unfold ingest apply_transactions
    rw [ha]
  · have h := runBatches_positions bs emptyDb [] 0 rfl
    unfold collectPositions intRange
    rw [h.2]
    exact List.nil_append _

/-- Witness for C7 at a concrete input. -/
theorem positions_gapless_witness :
    ((ingest (fun _ => 0) emptyDb [⟨"T", "a", "create", "d"⟩]).2
        = .ok (maxId emptyDb.sync_history + 1))
    ∧ collectPositions [((fun _ => 0), [⟨"T", "a", "create", "d"⟩])]
        = intRange (successCount [((fun _ => 0), [⟨"T", "a", "create", "d"⟩])]) := by
  have h := positions_gapless [((fun _ => 0), [⟨"T", "a", "create", "d"⟩])]
    (fun _ => 0) emptyDb [⟨"T", "a", "create", "d"⟩]
  exact ⟨h.1 (by decide), h.2⟩

/-! ### C6: range fetch returns the max position of the range and its transactions -/

theorem mem_intRangeFrom :
    ∀ (n s : Nat) (x : Int), x ∈ intRangeFrom s n → (s : Int) < x := by
  intro n
  induction n with
  | zero => intro s x h; simp [intRangeFrom] at h
  | succ k ih =>
    intro s x h
    rcases List.mem_cons.mp h with h1 | h2
    · omega
    · have := ih (s + 1) x h2
      omega

theorem pairwise_intRangeFrom :
    ∀ (n s : Nat), (intRangeFrom s n).Pairwise (· < ·) := by
  intro n
  induction n with
  | zero => intro s; exact List.Pairwise.nil
  | succ k ih =>
    intro s
    rw [show intRangeFrom s (k + 1) = ((s : Int) + 1) :: intRangeFrom (s + 1) k
      from rfl]
    rw [List.pairwise_cons]
    refine ⟨fun y hy => ?_, ih (s + 1)⟩
    have := mem_intRangeFrom k (s + 1) y hy
    omega

/-- C6: fetchRange over a reachable database returns as horizon the maximum
position present in [from, to] (0 when no entry qualifies) and as
transactions the concatenation, by ascending position and intra-batch
order, of the batches of all log entries in [from, to]. -/
theorem fetchRange_spec (bs : List Batch) (lo hi : Int) :
    get_transactions (applyBatches bs) lo hi
      = ((((applyBatches bs).sync_history.filter
            (fun e => decide (lo ≤ e.id ∧ e.id ≤ hi))).map
              (fun e => e.id)).foldl max 0,
         (((applyBatches bs).sync_history.filter
            (fun e => decide (lo ≤ e.id ∧ e.id ≤ hi))).map
              (fun e => e.actions)).flatten) := by
  have hids := (runBatches_positions bs emptyDb [] 0 rfl).1
  unfold get_transactions
  rw [Prod.mk.injEq]
  constructor
  · apply foldl_last_eq_max
    · have hsub : ((applyBatches bs).sync_history.filter
          (fun e => decide (lo ≤ e.id ∧ e.id ≤ hi))).map (fun e => e.id)
            |>.Sublist ((applyBatches bs).sync_history.map (fun e => e.id)) :=
        List.Sublist.map _ (List.filter_sublist _)
      apply List.Pairwise.sublist hsub
      show ((applyBatches bs).sync_history.map (fun e => e.id)).Pairwise (· < ·)
      unfold applyBatches
      rw [hids]
      exact pairwise_intRangeFrom _ 0
    · intro e he
      have hmem : e ∈ (applyBatches bs).sync_history :=
        (List.mem_filter.mp he).1
      have hid : e.id ∈ (applyBatches bs).sync_history.map (fun x => x.id) :=
        List.mem_map_of_mem _ hmem
      unfold applyBatches at hid
      rw [hids] at hid
      have := mem_intRangeFrom _ 0 e.id hid
      omega
  · rw [foldl_acc_append]
    exact List.nil_append _

end RustSqliteApi
